import Mathlib

/-!
Verification of the storm window manager's key model, key-sequence parser and
display, backend registration, and key-sequence matcher.

Strings are modelled as `List Char`: the Rust code slices `&str` at byte
indices, but every slice taken on the paths modelled here falls on a character
boundary for ASCII input, so positions are character positions.  Fallible
parsing (`Option<Result<..>>` in the source) becomes
`Option (Except ParserError ..)`.
-/

deriving instance DecidableEq for Except

namespace Storm

/-- The possible modifier keys from a key press (config/key.rs `KeyModifier`). -/
inductive KeyModifier
  | Alt
  | Control
  | Shift
  | Super
deriving DecidableEq, Repr

/-- Modifier set: one flag per `KeyModifier`, mirroring the
`EnumMap<KeyModifier, bool>` in config/key.rs `KeyModifiers`. -/
structure KeyModifiers where
  alt : Bool := false
  control : Bool := false
  shift : Bool := false
  super : Bool := false
deriving DecidableEq, Repr

instance : Inhabited KeyModifiers := ⟨{}⟩

/-- Source `KeyModifiers::push`: sets the flag of one modifier. -/
def KeyModifiers.push (m : KeyModifiers) : KeyModifier → KeyModifiers
  | .Alt => { m with alt := true }
  | .Control => { m with control := true }
  | .Shift => { m with shift := true }
  | .Super => { m with super := true }

/-- Source `Display for KeyModifiers`: the active modifiers in `EnumMap` order
(Alt, Control, Shift, Super), written as their `VARIANTS` prefixes. -/
def KeyModifiers.display (m : KeyModifiers) : List Char :=
  (if m.alt then ['M', '-'] else []) ++
    (if m.control then ['C', '-'] else []) ++
      (if m.shift then ['S', '-'] else []) ++
        (if m.super then ['L', '-'] else [])

/-- config/key.rs `InvisibleKey`.  The `u8` function-key number is a `Nat`;
the parser's checked arithmetic keeps it at most 255. -/
inductive InvisibleKey
  | F (n : Nat)
  | PageUp
  | PageDown
deriving DecidableEq, Repr

/-- Source `Display for InvisibleKey`. -/
def InvisibleKey.display : InvisibleKey → List Char
  | .F n => '<' :: 'F' :: '-' :: (Nat.toDigits 10 n ++ ['>'])
  | .PageUp => "<PG-UP>".toList
  | .PageDown => "<PG-DN>".toList

/-- config/key.rs `KeyKind`. -/
inductive KeyKind
  | Invisible (k : InvisibleKey)
  | Visible (t : List Char)
deriving DecidableEq, Repr

/-- config/key.rs `Key`: a modifier set together with a key kind. -/
structure Key where
  mods : KeyModifiers
  kind : KeyKind
deriving DecidableEq, Repr

/-- Source `Display for Key`: an invisible key is written as modifiers followed by the
key; a visible key writes the modifiers before EVERY character of its text,
with no escaping of special characters. -/
def Key.display (k : Key) : List Char :=
  match k.kind with
  | .Invisible ik => k.mods.display ++ ik.display
  | .Visible t => (t.map (fun c => k.mods.display ++ [c])).flatten

/-- Source `Display for KeySequence`: the keys, concatenated. -/
def seqDisplay (s : List Key) : List Char :=
  (s.map Key.display).flatten

/-- config/key.rs `ParserError`.  `UnusedEscape.index` is the character
position of the offending backslash inside `src`. -/
inductive ParserError
  | UnusedEscape (src : List Char) (index : Nat)
  | UnknownSpecialKey (s : List Char)
  | UnclosedSpecialKey (s : List Char)
deriving DecidableEq, Repr

/-- config/key.rs `KeyAction`. -/
inductive KeyAction
  | Quit
deriving DecidableEq, Repr

/-- Source `KeySequence::push`: append a key, or merge it into the current tail when
both are `Visible` and share the same modifier set. -/
def seqPush (s : List Key) (k : Key) : List Key :=
  match s.getLast? with
  | some last =>
    match last.kind, k.kind with
    | .Visible lt, .Visible kt =>
      if k.mods = last.mods then
        s.dropLast ++ [⟨last.mods, .Visible (lt ++ kt)⟩]
      else s ++ [k]
    | _, _ => s ++ [k]
  | none => s ++ [k]

/-- Source `KeySequence::contains`: zip the two sequences and check that no aligned
pair differs (the comparison stops at the shorter length). -/
def seqContains (a b : List Key) : Bool :=
  !((a.zip b).any fun p => decide (p.1 ≠ p.2))

/-- Source `Extend for KeySequence`: push each incoming key in order. -/
def seqExtend (s : List Key) (l : List Key) : List Key :=
  l.foldl seqPush s

/-- Source `FromIterator for KeySequence`: extend an empty sequence. -/
def seqFromIter (l : List Key) : List Key :=
  seqExtend [] l

/-- Source `KeyModifier::parse`: recognize one `M-`/`C-`/`S-`/`L-` prefix. -/
def keyModifierParse (input : List Char) : Option (KeyModifier × List Char) :=
  match input with
  | c1 :: c2 :: rest =>
    if c2 = '-' then
      if c1 = 'M' then some (.Alt, rest)
      else if c1 = 'C' then some (.Control, rest)
      else if c1 = 'S' then some (.Shift, rest)
      else if c1 = 'L' then some (.Super, rest)
      else none
    else none
  | _ => none

/-- The loop body of `KeyModifiers::parse`: greedily consume modifier
prefixes, accumulating their flags. -/
def keyModifiersParseAux (m : KeyModifiers) : List Char → KeyModifiers × List Char
  | c1 :: '-' :: rest =>
    if c1 = 'M' then keyModifiersParseAux (m.push .Alt) rest
    else if c1 = 'C' then keyModifiersParseAux (m.push .Control) rest
    else if c1 = 'S' then keyModifiersParseAux (m.push .Shift) rest
    else if c1 = 'L' then keyModifiersParseAux (m.push .Super) rest
    else (m, c1 :: '-' :: rest)
  | input => (m, input)

/-- Source `KeyModifiers::parse`: `none` unless at least one modifier prefix is
consumed (the source's `some` flag); never an error. -/
def keyModifiersParse (input : List Char) : Option (KeyModifiers × List Char) :=
  match keyModifierParse input with
  | none => none
  | some (md, rest) => some (keyModifiersParseAux ((default : KeyModifiers).push md) rest)

/-- Source `char::to_digit(10)` restricted to ASCII decimal digits. -/
def charDigit (c : Char) : Option Nat :=
  if '0' ≤ c ∧ c ≤ '9' then some (c.toNat - '0'.toNat) else none

/-- The `try_fold` of `InvisibleKey::parse`: accumulate the decimal value of
the function-key number with u8-checked multiplication and addition. -/
def fkeyFold (acc : Nat) : List Char → Option Nat
  | [] => some acc
  | c :: rest =>
    if acc * 10 ≤ 255 then
      match charDigit c with
      | none => none
      | some d => if acc * 10 + d ≤ 255 then fkeyFold (acc * 10 + d) rest else none
    else none

/-- The predicate of `input.find('>')`: characters before the closing
bracket. -/
def notGtChar (ch : Char) : Bool :=
  ch ≠ '>'

/-- Source `InvisibleKey::parse`.  After `find('>')` the remainder (`next`) starts AT
the `'>'`; the bracket's inside is matched against the named keys. -/
def invisibleKeyParse (input : List Char) :
    Option (Except ParserError (InvisibleKey × List Char)) :=
  match input with
  | [] => none
  | c :: _ =>
    if c ≠ '<' then none
    else
      match input.dropWhile notGtChar with
      | [] => some (.error (.UnclosedSpecialKey input))
      | c2 :: rest2 =>
        let inner := (input.takeWhile notGtChar).drop 1
        let next := c2 :: rest2
        if inner = "PG-UP".toList then some (.ok (.PageUp, next))
        else if inner = "PG-DN".toList then some (.ok (.PageDown, next))
        else if inner.take 2 = ['F', '-'] then
          match fkeyFold 0 (inner.drop 2) with
          | some n => some (.ok (.F n, next))
          | none => some (.error (.UnknownSpecialKey inner))
        else some (.error (.UnknownSpecialKey inner))

/-- The characters on which the visible-text scan of `KeyKind::parse`
stops (`next_if` guard). -/
def stopChar (c : Char) : Bool :=
  c = 'M' || c = 'C' || c = 'S' || c = 'L' || c = '<'

/-- The escape mapping of `KeyKind::parse`: `n`/`r`/`t` become control
characters, every other character stands for itself. -/
def escMap (c : Char) : Char :=
  if c = 'n' then '\n' else if c = 'r' then '\r' else if c = 't' then '\t' else c

/-- The character loop of `KeyKind::parse`'s visible branch: consume
characters until a stop character, resolving backslash escapes (the escaped
character is taken from the iterator even when it is a stop character); a
trailing backslash is an `UnusedEscape` error reported at its position in
`src`. -/
def visScan (src : List Char) (idx : Nat) (keys : List Char) :
    List Char → Except ParserError (List Char × List Char)
  | [] => .ok (keys, [])
  | [c] =>
    if stopChar c then .ok (keys, [c])
    else if c = '\\' then .error (.UnusedEscape src idx)
    else visScan src (idx + 1) (keys ++ [c]) []
  | c :: c2 :: rest2 =>
    if stopChar c then .ok (keys, c :: c2 :: rest2)
    else if c = '\\' then visScan src (idx + 2) (keys ++ [escMap c2]) rest2
    else visScan src (idx + 1) (keys ++ [c]) (c2 :: rest2)

/-- Source `KeyKind::parse`: empty input is `none`; a leading `'<'` defers to
`InvisibleKey::parse`; otherwise the visible scan runs, and an empty
accumulated text is `none`. -/
def kindParse (input : List Char) : Option (Except ParserError (KeyKind × List Char)) :=
  match input with
  | [] => none
  | c :: _ =>
    if c = '<' then
      (invisibleKeyParse input).map (fun r => r.map fun p => (KeyKind.Invisible p.1, p.2))
    else
      match visScan input 0 [] input with
      | .error e => some (.error e)
      | .ok (keys, rest) =>
        if keys.isEmpty then none else some (.ok (.Visible keys, rest))

/-- Source `Key::parse`: optional modifiers (defaulting to the empty set), then a
key kind. -/
def keyParse (input : List Char) : Option (Except ParserError (Key × List Char)) :=
  let p := match keyModifiersParse input with
           | some q => q
           | none => ((default : KeyModifiers), input)
  match kindParse p.2 with
  | none => none
  | some (.error e) => some (.error e)
  | some (.ok (kind, rest)) => some (.ok (⟨p.1, kind⟩, rest))

/-! Consumption bounds, needed to justify the `KeySequence::parse` loop. -/

theorem keyModifierParse_length (input : List Char) (p : KeyModifier × List Char)
    (h : keyModifierParse input = some p) : p.2.length + 2 = input.length := by
  obtain ⟨pm, pr⟩ := p
  match input with
  | [] => simp [keyModifierParse] at h
  | [c] => simp [keyModifierParse] at h
  | c1 :: c2 :: rest =>
    simp only [keyModifierParse] at h
    split_ifs at h <;> simp_all

theorem keyModifiersParseAux_length (m : KeyModifiers) (input : List Char) :
    (keyModifiersParseAux m input).2.length ≤ input.length := by
  match input with
  | [] => simp [keyModifiersParseAux]
  | [c] => simp [keyModifiersParseAux]
  | c1 :: c2 :: rest =>
    by_cases hd : c2 = '-'
    · subst hd
      simp only [keyModifiersParseAux]
      split_ifs <;>
        first
          | exact le_trans (keyModifiersParseAux_length _ rest)
              (by simp only [List.length_cons]; omega)
          | simp
    · rw [keyModifiersParseAux]
      intro c1' rest' heq
      injection heq with e1 e2
      injection e2 with e3 e4
      exact hd e3

theorem keyModifiersParse_length (input : List Char) (p : KeyModifiers × List Char)
    (h : keyModifiersParse input = some p) : p.2.length < input.length := by
  unfold keyModifiersParse at h
  match hm : keyModifierParse input with
  | none => rw [hm] at h; simp at h
  | some (md, rest) =>
    rw [hm] at h
    simp only [Option.some.injEq] at h
    have h1 := keyModifierParse_length input (md, rest) hm
    have h2 := keyModifiersParseAux_length ((default : KeyModifiers).push md) rest
    rw [← h]
    simp only at h1 ⊢
    omega

theorem visScan_length (src : List Char) (idx : Nat) (keys rem keys' rest : List Char)
    (h : visScan src idx keys rem = .ok (keys', rest)) :
    keys'.length + rest.length ≤ keys.length + rem.length ∧ keys.length ≤ keys'.length := by
  match rem with
  | [] =>
    simp only [visScan, Except.ok.injEq, Prod.mk.injEq] at h
    obtain ⟨h1, h2⟩ := h
    subst h1; subst h2; simp
  | [c] =>
    simp only [visScan] at h
    split_ifs at h
    all_goals
      first
        | exact Except.noConfusion h
        | (simp only [Except.ok.injEq, Prod.mk.injEq] at h
           obtain ⟨h1, h2⟩ := h
           subst h1; subst h2; simp)
  | c :: c2 :: rem2 =>
    simp only [visScan] at h
    split_ifs at h with hstop hesc
    · simp only [Except.ok.injEq, Prod.mk.injEq] at h
      obtain ⟨h1, h2⟩ := h
      subst h1; subst h2; simp
    · have hr := visScan_length src (idx + 2) (keys ++ [escMap c2]) rem2 keys' rest h
      simp at hr ⊢
      omega
    · have hr := visScan_length src (idx + 1) (keys ++ [c]) (c2 :: rem2) keys' rest h
      simp at hr ⊢
      omega

theorem invisibleKeyParse_ok (input : List Char) (k : InvisibleKey) (rest : List Char)
    (h : invisibleKeyParse input = some (.ok (k, rest))) :
    rest = input.dropWhile notGtChar ∧ rest ≠ [] ∧ input.head? = some '<' := by
  match input with
  | [] => simp [invisibleKeyParse] at h
  | c :: t =>
    by_cases hc : c = '<'
    · subst hc
      simp only [invisibleKeyParse] at h
      rw [if_neg (by simp)] at h
      split at h
      · simp at h
      · rename_i c2 rest2 heqq
        have heq : List.dropWhile notGtChar ('<' :: t) = c2 :: rest2 := heqq
        rw [heq]
        split_ifs at h
        · simp only [Option.some.injEq, Except.ok.injEq, Prod.mk.injEq] at h
          exact ⟨h.2.symm, by simp [← h.2], rfl⟩
        · simp only [Option.some.injEq, Except.ok.injEq, Prod.mk.injEq] at h
          exact ⟨h.2.symm, by simp [← h.2], rfl⟩
        · split at h
          · simp only [Option.some.injEq, Except.ok.injEq, Prod.mk.injEq] at h
            exact ⟨h.2.symm, by simp [← h.2], rfl⟩
          · simp at h
        · simp at h
    · simp only [invisibleKeyParse] at h
      rw [if_pos hc] at h
      simp at h

theorem invisibleKeyParse_length (input : List Char) (k : InvisibleKey) (rest : List Char)
    (h : invisibleKeyParse input = some (.ok (k, rest))) : rest.length < input.length := by
  obtain ⟨hrest, -, hhead⟩ := invisibleKeyParse_ok input k rest h
  match input with
  | [] => simp at hhead
  | c :: t =>
    simp only [List.head?_cons, Option.some.injEq] at hhead
    subst hhead
    have hdw : List.dropWhile notGtChar ('<' :: t) = List.dropWhile notGtChar t := by
      rw [List.dropWhile_cons]
      simp [notGtChar]
    rw [hdw] at hrest
    have hlen : (List.dropWhile notGtChar t).length ≤ t.length :=
      (List.dropWhile_suffix _).length_le
    subst hrest
    simp only [List.length_cons]
    omega

theorem kindParse_length (input : List Char) (k : KeyKind) (rest : List Char)
    (h : kindParse input = some (.ok (k, rest))) : rest.length < input.length := by
  match input with
  | [] => simp [kindParse] at h
  | c :: t =>
    simp only [kindParse] at h
    split_ifs at h with hc
    · match hi : invisibleKeyParse (c :: t) with
      | none => rw [hi] at h; simp at h
      | some (.error e) => rw [hi] at h; simp [Except.map] at h
      | some (.ok (ik, r)) =>
        rw [hi] at h
        have h2 : r = rest := by
          simp only [Option.map_some', Except.map, Option.some.injEq, Except.ok.injEq,
            Prod.mk.injEq] at h
          exact h.2
        subst h2
        exact invisibleKeyParse_length _ _ _ hi
    · match hv : visScan (c :: t) 0 [] (c :: t) with
      | .error e => rw [hv] at h; simp at h
      | .ok (keys, r) =>
        rw [hv] at h
        simp only at h
        split_ifs at h with hk
        all_goals
          first
            | exact Option.noConfusion h
            | (have h2 : r = rest := by
                simp only [Option.some.injEq, Except.ok.injEq, Prod.mk.injEq] at h
                exact h.2
               subst h2
               have hvl := visScan_length (c :: t) 0 [] (c :: t) keys r hv
               have hne : keys ≠ [] := by simpa [List.isEmpty_iff] using hk
               have hk1 : 1 ≤ keys.length := by
                 cases keys with
                 | nil => simp at hne
                 | cons a b => simp
               simp only [List.length_cons, List.length_nil] at hvl ⊢
               omega)

theorem keyParse_length (input : List Char) (k : Key) (rest : List Char)
    (h : keyParse input = some (.ok (k, rest))) : rest.length < input.length := by
  unfold keyParse at h
  match hm : keyModifiersParse input with
  | none =>
    rw [hm] at h
    simp only at h
    match hk : kindParse input with
    | none => rw [hk] at h; simp at h
    | some (.error e) => rw [hk] at h; simp at h
    | some (.ok (kind, r)) =>
      rw [hk] at h
      simp only [Option.some.injEq, Except.ok.injEq, Prod.mk.injEq] at h
      obtain ⟨-, h2⟩ := h
      subst h2
      exact kindParse_length _ _ _ hk
  | some (m, input1) =>
    rw [hm] at h
    simp only at h
    match hk : kindParse input1 with
    | none => rw [hk] at h; simp at h
    | some (.error e) => rw [hk] at h; simp at h
    | some (.ok (kind, r)) =>
      rw [hk] at h
      simp only [Option.some.injEq, Except.ok.injEq, Prod.mk.injEq] at h
      obtain ⟨-, h2⟩ := h
      subst h2
      have h1 := keyModifiersParse_length input (m, input1) hm
      have h2 := kindParse_length _ _ _ hk
      simp only at h1
      omega

/-- The loop of `KeySequence::parse`: parse keys while possible, pushing each
one; an error aborts the whole parse; the loop ends at the first unparsable
position, succeeding only if at least one key was parsed (`flag` is the
source's `some` variable). -/
def seqParseAux (flag : Bool) (acc : List Key) (input : List Char) :
    Option (Except ParserError (List Key × List Char)) :=
  match h : keyParse input with
  | some (.error e) => some (.error e)
  | some (.ok (k, rest)) => seqParseAux true (seqPush acc k) rest
  | none => if flag then some (.ok (acc, input)) else none
termination_by input.length
decreasing_by exact keyParse_length input k rest h

/-- Source `KeySequence::parse`. -/
def seqParse (input : List Char) : Option (Except ParserError (List Key × List Char)) :=
  seqParseAux false [] input

/-! ### The key-sequence matcher and the reply channel

`crate::state` (the core dispatcher, its `Event`/`KeyIntercept` types and the
matcher) is not part of this source tree; only its callers are.  The
definitions below are therefore modelled from the specification. -/

/-- Modelled from the spec: `crate::state`'s `KeyIntercept`, the per-keypress
reply — *Allow* lets the keystroke through, *Block* swallows it.  The default
is *Allow* ("the wait must resolve to a safe default of *Allow*", §5). -/
inductive KeyIntercept
  | Allow
  | Block
deriving DecidableEq, Repr

instance : Inhabited KeyIntercept := ⟨.Allow⟩

/-- Modelled from the spec: the error a oneshot receive reports when the
sender was dropped without sending. -/
inductive RecvError
  | disconnected
deriving DecidableEq, Repr

/-- Modelled from the spec: the blocking wait on the per-keypress oneshot
reply channel (§5).  The channel's outcome is abstracted as what the sender
did: `some v` if a reply was sent, `none` if the sender was dropped without
sending, in which case the wait resolves with an error instead of blocking. -/
def oneshotRecv (sent : Option KeyIntercept) : Except RecvError KeyIntercept :=
  match sent with
  | some v => .ok v
  | none => .error .disconnected

/-- backend/windows/state/key_hook.rs: the hook's decision is
`rx.recv().unwrap_or_default()` — the received reply, or the default *Allow*
when the receive failed. -/
def keyHookDecision (r : Except RecvError KeyIntercept) : KeyIntercept :=
  match r with
  | .ok v => v
  | .error _ => default

/-- backend/windows/state/key_hook.rs: the hook returns 1 (swallows the
keystroke) exactly when the decision matches `KeyIntercept::Block`. -/
def keyHookSwallows (r : Except RecvError KeyIntercept) : Bool :=
  decide (keyHookDecision r = .Block)

/-- Modelled from the spec: one scan over the binding table (§4.3).  The
pairs are visited in order; an exact match stops the scan and yields the
bound action; otherwise a strict-prefix candidate
(buffer shorter, contents matching the sequence's leading elements, via
`KeySequence::contains`) raises the pending flag. -/
def matcherScan (buf : List Key) : List (KeyAction × List Key) → Option KeyAction × Bool
  | [] => (none, false)
  | (a, s) :: rest =>
    if buf = s then (some a, false)
    else
      ((matcherScan buf rest).1,
        (matcherScan buf rest).2 || (seqContains s buf && decide (buf.length < s.length)))

/-- Modelled from the spec: the per-keypress matcher step (§4.3).  Appends the
key to the pressed buffer with `KeySequence::push`, applies the
`max_binding_len` cutoff, then scans the table; returns the reply, the new
buffer, and the action to execute (if any). -/
def matcherStep (table : List (KeyAction × List Key)) (maxLen : Nat)
    (buf : List Key) (k : Key) : KeyIntercept × List Key × Option KeyAction :=
  let pressed := seqPush buf k
  if maxLen < pressed.length then (.Allow, [], none)
  else
    match matcherScan pressed table with
    | (some a, _) => (.Allow, [], some a)
    | (none, true) => (.Block, pressed, none)
    | (none, false) => (.Allow, [], none)

/-! ### Backend registration (backend/windows/state.rs) -/

/-- The errors of `WindowsBackendState::new`: the variants of
backend/windows/error.rs's `WindowsBackendError` together with
`MultipleKeyboardHooks`, which state.rs returns when the global event-sender
slot is already occupied.  A `WinapiError` is its error code. -/
inductive WindowsBackendError
  | TryFromInt
  | Winapi (code : Nat)
  | MultipleKeyboardHooks
deriving DecidableEq, Repr

/-- Source `WindowsBackendState::new`: check-and-set of the global `EVENT_SENDER`
slot, then hook installation.  The slot holds the current event sender
(abstracted as a `Nat` token); `hookInstall` is the outcome of
`SetWindowsHookExW` (the installed hook handle, or a Winapi error code).
Returns the construction result and the new contents of the slot. -/
def windowsBackendStateNew (slot : Option Nat) (eventSender : Nat)
    (hookInstall : Except Nat Nat) : Except WindowsBackendError Nat × Option Nat :=
  match slot with
  | some s => (.error .MultipleKeyboardHooks, some s)
  | none =>
    match hookInstall with
    | .ok hook => (.ok hook, some eventSender)
    | .error code => (.error (.Winapi code), some eventSender)

/-- Source `Drop for WindowsBackendState`: unhook and clear the global slot. -/
def windowsBackendStateDrop (_slot : Option Nat) : Option Nat :=
  none

/-! ### Predicates used to state the claims -/

/-- Characters that are neither special to the visible-key scanner
(`M`, `C`, `S`, `L`, `<`), nor the escape backslash, and are ASCII (so that
character positions and the source's byte positions agree). -/
def goodChar (c : Char) : Prop :=
  c ≠ 'M' ∧ c ≠ 'C' ∧ c ≠ 'S' ∧ c ≠ 'L' ∧ c ≠ '<' ∧ c ≠ '\\' ∧ c.toNat < 128

instance (c : Char) : Decidable (goodChar c) :=
  inferInstanceAs (Decidable
    (c ≠ 'M' ∧ c ≠ 'C' ∧ c ≠ 'S' ∧ c ≠ 'L' ∧ c ≠ '<' ∧ c ≠ '\\' ∧ c.toNat < 128))

/-- A list that is empty or starts with a scanner stop character — the shapes
at which the visible-key scan ends. -/
def stopBoundary (l : List Char) : Prop :=
  l = [] ∨ ∃ c r, l = c :: r ∧ stopChar c = true

/-- The text of a visible key, if any. -/
def Key.visText (k : Key) : Option (List Char) :=
  match k.kind with
  | .Visible t => some t
  | .Invisible _ => none

/-- A key is `keyGood` when it is visible with a nonempty text of `goodChar`
characters. -/
def keyGood (k : Key) : Prop :=
  k.visText.isSome ∧ k.visText.getD [] ≠ [] ∧ ∀ c ∈ k.visText.getD [], goodChar c

instance (k : Key) : Decidable (keyGood k) :=
  inferInstanceAs (Decidable
    (k.visText.isSome ∧ k.visText.getD [] ≠ [] ∧ ∀ c ∈ k.visText.getD [], goodChar c))

/-- The class of key sequences on which display provably round-trips: every
key is `keyGood`, every key after the first carries at least one modifier,
and adjacent keys have different modifier sets. -/
def displayable (S : List Key) : Prop :=
  S ≠ [] ∧ (∀ k ∈ S, keyGood k) ∧ (∀ k ∈ S.tail, k.mods ≠ default) ∧
    List.Chain' (fun a b => a.mods ≠ b.mods) S

instance (S : List Key) : Decidable (displayable S) :=
  inferInstanceAs (Decidable
    (S ≠ [] ∧ (∀ k ∈ S, keyGood k) ∧ (∀ k ∈ S.tail, k.mods ≠ default) ∧
      List.Chain' (fun (a b : Key) => a.mods ≠ b.mods) S))

/-- Whether a key kind is `Visible`. -/
def KeyKind.isVis : KeyKind → Bool
  | .Visible _ => true
  | .Invisible _ => false

/-- The documented `KeySequence` invariant: no two adjacent elements are both
`Visible` with equal modifier sets. -/
def mergedInv (s : List Key) : Prop :=
  List.Chain' (fun a b => ¬(a.kind.isVis = true ∧ b.kind.isVis = true ∧ a.mods = b.mods)) s

/-! ### Helper lemmas -/

theorem default_mods : (default : KeyModifiers) = ⟨false, false, false, false⟩ := rfl

theorem goodChar_stop (c : Char) (h : goodChar c) : stopChar c = false := by
  obtain ⟨h1, h2, h3, h4, h5, -⟩ := h
  simp [stopChar, h1, h2, h3, h4, h5]

theorem goodChar_noMod (c : Char) (r : List Char) (h : goodChar c) :
    keyModifierParse (c :: r) = none := by
  obtain ⟨h1, h2, h3, h4, -⟩ := h
  match r with
  | [] => rfl
  | c2 :: r2 =>
    simp only [keyModifierParse]
    split_ifs <;> simp_all

theorem keyModifiersParseAux_stop (m : KeyModifiers) (input : List Char)
    (h : keyModifierParse input = none) : keyModifiersParseAux m input = (m, input) := by
  match input with
  | [] => rfl
  | [c] => rfl
  | c1 :: c2 :: rest =>
    by_cases hd : c2 = '-'
    · subst hd
      simp only [keyModifierParse] at h
      simp only [keyModifiersParseAux]
      split_ifs at h ⊢ <;> simp_all
    · rw [keyModifiersParseAux]
      intro c1' rest' heq
      injection heq with e1 e2
      injection e2 with e3 e4
      exact hd e3

theorem keyModifierParse_alt (r : List Char) :
    keyModifierParse ('M' :: '-' :: r) = some (.Alt, r) := rfl

theorem keyModifierParse_control (r : List Char) :
    keyModifierParse ('C' :: '-' :: r) = some (.Control, r) := rfl

theorem keyModifierParse_shift (r : List Char) :
    keyModifierParse ('S' :: '-' :: r) = some (.Shift, r) := rfl

theorem keyModifierParse_super (r : List Char) :
    keyModifierParse ('L' :: '-' :: r) = some (.Super, r) := rfl

theorem keyModifiersParse_display (m : KeyModifiers) (rest : List Char)
    (h : keyModifierParse rest = none) :
    keyModifiersParse (m.display ++ rest)
      = if m = default then none else some (m, rest) := by
  obtain ⟨a, c, s, l⟩ := m
  cases a <;> cases c <;> cases s <;> cases l <;>
    simp [KeyModifiers.display, keyModifiersParse, keyModifiersParseAux,
      keyModifierParse_alt, keyModifierParse_control, keyModifierParse_shift,
      keyModifierParse_super, KeyModifiers.push, default_mods, h,
      keyModifiersParseAux_stop _ _ h]

theorem visScan_walk (src : List Char) (t : List Char) (ht : ∀ c ∈ t, goodChar c) :
    ∀ (idx : Nat) (keys rest : List Char),
      visScan src idx keys (t ++ rest) = visScan src (idx + t.length) (keys ++ t) rest := by
  induction t with
  | nil => intro idx keys rest; simp
  | cons c t ih =>
    intro idx keys rest
    have hc := ht c (by simp)
    have hstop : stopChar c = false := goodChar_stop c hc
    have hbs : c ≠ '\\' := hc.2.2.2.2.2.1
    have hstep : visScan src idx keys (c :: (t ++ rest))
        = visScan src (idx + 1) (keys ++ [c]) (t ++ rest) := by
      match hshape : t ++ rest with
      | [] => simp [visScan, hstop, hbs]
      | c2 :: r2 => simp [visScan, hstop, hbs]
    rw [List.cons_append, hstep, ih (fun x hx => ht x (by simp [hx])) (idx + 1) (keys ++ [c]) rest]
    rw [show (keys ++ [c]) ++ t = keys ++ (c :: t) by simp]
    rw [show idx + 1 + t.length = idx + (c :: t).length by simp [List.length_cons]; omega]

theorem visScan_stop (src : List Char) (idx : Nat) (keys rest : List Char)
    (hrest : stopBoundary rest) : visScan src idx keys rest = .ok (keys, rest) := by
  rcases hrest with rfl | ⟨c, r, rfl, hstop⟩
  · rfl
  · match r with
    | [] => simp [visScan, hstop]
    | c2 :: r2 => simp [visScan, hstop]

theorem kindParse_plain (t rest : List Char) (ht : t ≠ []) (hall : ∀ c ∈ t, goodChar c)
    (hrest : stopBoundary rest) :
    kindParse (t ++ rest) = some (.ok (.Visible t, rest)) := by
  match t with
  | c :: t' =>
    have hc := hall c (by simp)
    simp only [List.cons_append, kindParse]
    rw [if_neg hc.2.2.2.2.1]
    rw [show c :: (t' ++ rest) = (c :: t') ++ rest from rfl]
    rw [visScan_walk _ (c :: t') hall 0 [] rest]
    rw [visScan_stop _ _ _ _ hrest]
    simp

theorem keyParse_plain (t rest : List Char) (ht : t ≠ []) (hall : ∀ c ∈ t, goodChar c)
    (hrest : stopBoundary rest) :
    keyParse (t ++ rest) = some (.ok (⟨default, .Visible t⟩, rest)) := by
  match t with
  | c :: t' =>
    have hmods : keyModifiersParse ((c :: t') ++ rest) = none := by
      have := goodChar_noMod c (t' ++ rest) (hall c (by simp))
      simp [keyModifiersParse, List.cons_append, this]
    simp only [keyParse, hmods]
    rw [kindParse_plain (c :: t') rest ht hall hrest]

theorem keyParse_modsChar (m : KeyModifiers) (hm : m ≠ default) (c : Char)
    (hc : goodChar c) (rest : List Char) (hrest : stopBoundary rest) :
    keyParse (m.display ++ c :: rest) = some (.ok (⟨m, .Visible [c]⟩, rest)) := by
  have hmods : keyModifiersParse (m.display ++ c :: rest) = some (m, c :: rest) := by
    rw [keyModifiersParse_display m (c :: rest) (goodChar_noMod c rest hc)]
    rw [if_neg hm]
  simp only [keyParse, hmods]
  rw [show c :: rest = [c] ++ rest from rfl]
  rw [kindParse_plain [c] rest (by simp) (by simpa using hc) hrest]

theorem keyParse_nil : keyParse [] = none := rfl

theorem keyDisplay_vis_nil (m : KeyModifiers) : Key.display ⟨m, .Visible []⟩ = [] := rfl

theorem keyDisplay_vis_cons (m : KeyModifiers) (c : Char) (t : List Char) :
    Key.display ⟨m, .Visible (c :: t)⟩ = m.display ++ c :: Key.display ⟨m, .Visible t⟩ := by
  simp [Key.display]

theorem keyDisplay_default (t : List Char) : Key.display ⟨default, .Visible t⟩ = t := by
  induction t with
  | nil => rfl
  | cons c t ih =>
    rw [keyDisplay_vis_cons, ih]
    simp [KeyModifiers.display, default_mods]

theorem modsDisplay_head (m : KeyModifiers) (hm : m ≠ default) :
    ∃ c r, m.display = c :: r ∧ stopChar c = true := by
  obtain ⟨a, c, s, l⟩ := m
  cases a <;> cases c <;> cases s <;> cases l <;>
    simp_all [KeyModifiers.display, stopChar, default_mods]

theorem seqDisplay_nil : seqDisplay [] = [] := rfl

theorem seqDisplay_cons (k : Key) (ks : List Key) :
    seqDisplay (k :: ks) = k.display ++ seqDisplay ks := by
  simp [seqDisplay]

theorem keyGood_vis (k : Key) (h : keyGood k) :
    ∃ t, k.kind = .Visible t ∧ t ≠ [] ∧ ∀ c ∈ t, goodChar c := by
  obtain ⟨h1, h2, h3⟩ := h
  match hk : k.kind with
  | .Visible t =>
    refine ⟨t, rfl, ?_, ?_⟩
    · simpa [Key.visText, hk] using h2
    · simpa [Key.visText, hk] using h3
  | .Invisible i => simp [Key.visText, hk] at h1

theorem stopBoundary_dispTail (m : KeyModifiers) (hm : m ≠ default) (t tail : List Char)
    (htail : stopBoundary tail) : stopBoundary (Key.display ⟨m, .Visible t⟩ ++ tail) := by
  match t with
  | [] => simpa [keyDisplay_vis_nil] using htail
  | c :: t' =>
    obtain ⟨cs, r, hdisp, hstop⟩ := modsDisplay_head m hm
    rw [keyDisplay_vis_cons, hdisp]
    right
    refine ⟨cs, r ++ c :: (Key.display ⟨m, .Visible t'⟩ ++ tail), ?_, hstop⟩
    simp

theorem stopBoundary_seqDisplay (ks : List Key)
    (h : ∀ k ∈ ks, keyGood k ∧ k.mods ≠ default) : stopBoundary (seqDisplay ks) := by
  match ks with
  | [] => left; rfl
  | k :: ks' =>
    obtain ⟨hg, hm⟩ := h k (by simp)
    obtain ⟨t, hkind, ht, hall⟩ := keyGood_vis k hg
    obtain ⟨km, kkind⟩ := k
    simp only at hkind hm
    subst hkind
    rw [seqDisplay_cons]
    have htail := stopBoundary_seqDisplay ks' (fun k' hk' => h k' (by simp [hk']))
    exact stopBoundary_dispTail km hm t (seqDisplay ks') htail

theorem seqParseAux_eq (flag : Bool) (acc : List Key) (input : List Char) :
    seqParseAux flag acc input =
      match keyParse input with
      | some (.error e) => some (.error e)
      | some (.ok (k, rest)) => seqParseAux true (seqPush acc k) rest
      | none => if flag then some (.ok (acc, input)) else none := by
  rw [seqParseAux]
  split <;> simp_all

theorem seqPush_nil (k : Key) : seqPush [] k = [k] := rfl

theorem seqPush_merge (acc : List Key) (m : KeyModifiers) (s u : List Char) :
    seqPush (acc ++ [⟨m, .Visible s⟩]) ⟨m, .Visible u⟩
      = acc ++ [⟨m, .Visible (s ++ u)⟩] := by
  simp [seqPush, List.getLast?_concat, List.dropLast_concat]

/-- When the last element cannot merge with `k` (different modifiers, or one
side invisible, or empty sequence), push is a plain append. -/
theorem seqPush_append (acc : List Key) (k : Key)
    (h : ∀ last ∈ acc.getLast?, ∀ lt, last.kind = .Visible lt →
      (∀ kt, k.kind = .Visible kt → k.mods ≠ last.mods)) :
    seqPush acc k = acc ++ [k] := by
  unfold seqPush
  match hg : acc.getLast? with
  | none => rfl
  | some last =>
    obtain ⟨lm, lkind⟩ := last
    obtain ⟨km, kkind⟩ := k
    cases lkind with
    | Invisible ik => rfl
    | Visible lt =>
      cases kkind with
      | Invisible ik => rfl
      | Visible kt =>
        have hne : km ≠ lm := h ⟨lm, .Visible lt⟩ (by simp [hg]) lt rfl kt rfl
        simp only []
        rw [if_neg hne]

theorem seqPush_ne_nil (acc : List Key) (k : Key) : seqPush acc k ≠ [] := by
  unfold seqPush
  match hg : acc.getLast? with
  | none => simp
  | some last =>
    obtain ⟨lm, lkind⟩ := last
    obtain ⟨km, kkind⟩ := k
    cases lkind <;> cases kkind <;> by_cases he : km = lm <;> simp [he]

/-- Re-parsing the character-interleaved display of a nonempty-modifier
visible key merges its characters, one per parsed key, back into the sequence
tail. -/
theorem seqAux_chars (m : KeyModifiers) (hm : m ≠ default) (t : List Char)
    (hall : ∀ c ∈ t, goodChar c) (tail : List Char) (htail : stopBoundary tail)
    (acc : List Key) (s : List Char) :
    seqParseAux true (acc ++ [⟨m, .Visible s⟩]) (Key.display ⟨m, .Visible t⟩ ++ tail)
      = seqParseAux true (acc ++ [⟨m, .Visible (s ++ t)⟩]) tail := by
  induction t generalizing s with
  | nil => simp [keyDisplay_vis_nil]
  | cons c t ih =>
    have hc := hall c (by simp)
    have hbnd : stopBoundary (Key.display ⟨m, .Visible t⟩ ++ tail) :=
      stopBoundary_dispTail m hm t tail htail
    rw [keyDisplay_vis_cons, List.append_assoc, List.cons_append]
    rw [seqParseAux_eq, keyParse_modsChar m hm c hc _ hbnd]
    simp only
    rw [seqPush_merge]
    rw [ih (fun x hx => hall x (by simp [hx])) (s ++ [c])]
    simp

/-- Processing one whole displayed key (with nonempty modifiers) appends it to
the parsed sequence. -/
theorem seqAux_key (m : KeyModifiers) (hm : m ≠ default) (t : List Char) (ht : t ≠ [])
    (hall : ∀ c ∈ t, goodChar c) (tail : List Char) (htail : stopBoundary tail)
    (acc : List Key)
    (hbar : ∀ u, seqPush acc ⟨m, .Visible u⟩ = acc ++ [⟨m, .Visible u⟩]) :
    seqParseAux true acc (Key.display ⟨m, .Visible t⟩ ++ tail)
      = seqParseAux true (acc ++ [⟨m, .Visible t⟩]) tail := by
  match t with
  | c :: t' =>
    have hc := hall c (by simp)
    have hbnd : stopBoundary (Key.display ⟨m, .Visible t'⟩ ++ tail) :=
      stopBoundary_dispTail m hm t' tail htail
    rw [keyDisplay_vis_cons, List.append_assoc, List.cons_append]
    rw [seqParseAux_eq, keyParse_modsChar m hm c hc _ hbnd]
    simp only
    rw [hbar [c]]
    rw [seqAux_chars m hm t' (fun x hx => hall x (by simp [hx])) tail htail acc [c]]
    simp

/-- Processing one whole displayed key with empty modifiers (only possible in
first position) appends it to the parsed sequence. -/
theorem seqAux_key_default (t : List Char) (ht : t ≠ [])
    (hall : ∀ c ∈ t, goodChar c) (tail : List Char) (htail : stopBoundary tail)
    (acc : List Key)
    (hbar : seqPush acc ⟨default, .Visible t⟩ = acc ++ [⟨default, .Visible t⟩]) :
    seqParseAux true acc (Key.display ⟨default, .Visible t⟩ ++ tail)
      = seqParseAux true (acc ++ [⟨default, .Visible t⟩]) tail := by
  rw [keyDisplay_default]
  rw [seqParseAux_eq, keyParse_plain t tail ht hall htail]
  simp only
  rw [hbar]

/-- Re-parsing the display of a run of good keys, all with nonempty modifiers
and chained distinct modifiers, appends exactly those keys. -/
theorem seqAux_seq : ∀ (ks acc : List Key),
    (∀ k ∈ ks, keyGood k ∧ k.mods ≠ default) →
    List.Chain' (fun a b => a.mods ≠ b.mods) ks →
    (∀ hd ∈ ks.head?, ∀ last ∈ acc.getLast?, last.mods ≠ hd.mods) →
    seqParseAux true acc (seqDisplay ks) = some (.ok (acc ++ ks, []))
  | [], acc, _, _, _ => by
    rw [seqDisplay_nil, seqParseAux_eq, keyParse_nil]
    simp
  | k :: ks', acc, hks, hchain, hbar => by
    obtain ⟨hg, hm⟩ := hks k (by simp)
    obtain ⟨t, hkind, ht, hall⟩ := keyGood_vis k hg
    obtain ⟨km, kkind⟩ := k
    simp only at hkind hm
    subst hkind
    rw [seqDisplay_cons]
    have htail : stopBoundary (seqDisplay ks') :=
      stopBoundary_seqDisplay ks' (fun k' hk' => hks k' (by simp [hk']))
    have hpush : ∀ u, seqPush acc ⟨km, .Visible u⟩ = acc ++ [⟨km, .Visible u⟩] := by
      intro u
      apply seqPush_append
      intro last hlast lt hlt kt hkt
      intro he
      exact hbar ⟨km, .Visible t⟩ (by simp) last hlast he.symm
    rw [seqAux_key km hm t ht hall (seqDisplay ks') htail acc hpush]
    have hchain' := (List.chain'_cons'.mp hchain)
    have hb2 : ∀ hd ∈ ks'.head?, ∀ last ∈ (acc ++ [(⟨km, .Visible t⟩ : Key)]).getLast?,
        last.mods ≠ hd.mods := by
      intro hd hhd last hlast
      rw [List.getLast?_concat] at hlast
      simp only [Option.mem_def, Option.some.injEq] at hlast
      subst hlast
      exact hchain'.1 hd hhd
    have hrec := seqAux_seq ks' (acc ++ [(⟨km, .Visible t⟩ : Key)])
      (fun k' hk' => hks k' (by simp [hk'])) hchain'.2 hb2
    rw [hrec]
    simp

/-! ### Claim theorems -/

/-- Claim C1 (corrected): the round-trip law `parse(display(S)) = S` fails on
the code as stated (see `c1_round_trip_counterexample`), but holds on every
`displayable` sequence: all keys Visible with nonempty texts of ASCII
characters other than `M`, `C`, `S`, `L`, `<` and backslash, every key after
the first with a nonempty modifier set, and adjacent keys with distinct
modifier sets.  Every such sequence is itself producible by the grammar
(display it and parse that). -/
theorem c1_round_trip_amended (S : List Key) (h : displayable S) :
    seqParse (seqDisplay S) = some (.ok (S, [])) := by
  obtain ⟨hne, hgood, htailmods, hchain⟩ := h
  match S with
  | k :: ks =>
    obtain ⟨t, hkind, ht, hall⟩ := keyGood_vis k (hgood k (by simp))
    obtain ⟨km, kkind⟩ := k
    simp only at hkind
    subst hkind
    rw [seqDisplay_cons]
    unfold seqParse
    have htail : stopBoundary (seqDisplay ks) := by
      apply stopBoundary_seqDisplay
      intro k' hk'
      exact ⟨hgood k' (by simp [hk']), htailmods k' (by simpa using hk')⟩
    have hchain' := List.chain'_cons'.mp hchain
    by_cases hm : km = default
    · subst hm
      rw [keyDisplay_default]
      rw [seqParseAux_eq, keyParse_plain t (seqDisplay ks) ht hall htail]
      simp only
      rw [seqPush_nil]
      have hb2 : ∀ hd ∈ ks.head?, ∀ last ∈ ([(⟨default, .Visible t⟩ : Key)]).getLast?,
          last.mods ≠ hd.mods := by
        intro hd hhd last hlast
        simp only [List.getLast?_singleton, Option.mem_def, Option.some.injEq] at hlast
        subst hlast
        exact hchain'.1 hd hhd
      have hrec := seqAux_seq ks [(⟨default, .Visible t⟩ : Key)]
        (fun k' hk' => ⟨hgood k' (by simp [hk']), htailmods k' (by simpa using hk')⟩)
        hchain'.2 hb2
      rw [hrec]
      simp
    · match t, ht with
      | c :: t', _ =>
        have hc := hall c (by simp)
        have hbnd : stopBoundary (Key.display ⟨km, .Visible t'⟩ ++ seqDisplay ks) :=
          stopBoundary_dispTail km hm t' (seqDisplay ks) htail
        rw [keyDisplay_vis_cons, List.append_assoc, List.cons_append]
        rw [seqParseAux_eq, keyParse_modsChar km hm c hc _ hbnd]
        simp only
        rw [seqPush_nil]
        rw [show ([(⟨km, .Visible [c]⟩ : Key)]) = [] ++ [(⟨km, .Visible [c]⟩ : Key)] by simp]
        rw [seqAux_chars km hm t' (fun x hx => hall x (by simp [hx])) (seqDisplay ks) htail [] [c]]
        simp only [List.nil_append, List.singleton_append]
        have hb2 : ∀ hd ∈ ks.head?, ∀ last ∈ ([(⟨km, .Visible (c :: t')⟩ : Key)]).getLast?,
            last.mods ≠ hd.mods := by
          intro hd hhd last hlast
          simp only [List.getLast?_singleton, Option.mem_def, Option.some.injEq] at hlast
          subst hlast
          exact hchain'.1 hd hhd
        have hrec := seqAux_seq ks [(⟨km, .Visible (c :: t')⟩ : Key)]
          (fun k' hk' => ⟨hgood k' (by simp [hk']), htailmods k' (by simpa using hk')⟩)
          hchain'.2 hb2
        rw [hrec]
        simp

/-- Claim C1 counterexample: `S = [⟨∅, Visible "M-"⟩]` is producible by the
grammar (it is the successful parse of `"\M-"`), yet displaying it yields
`"M-"`, whose parse is `none` — so `parse(display(S)) ≠ S` as the claim
requires. -/
theorem c1_round_trip_counterexample :
    seqParse "\\M-".toList
        = some (.ok ([(⟨default, .Visible ['M', '-']⟩ : Key)], [])) ∧
      seqParse (seqDisplay [(⟨default, .Visible ['M', '-']⟩ : Key)]) = none := by
  constructor
  · show seqParseAux false [] _ = _
    rw [seqParseAux_eq]
    rw [show keyParse "\\M-".toList
        = some (.ok ((⟨default, .Visible ['M', '-']⟩ : Key), [])) from rfl]
    simp only
    rw [seqParseAux_eq, keyParse_nil]
    rfl
  · show seqParseAux false [] _ = _
    rw [seqParseAux_eq]
    rw [show keyParse (seqDisplay [(⟨default, .Visible ['M', '-']⟩ : Key)]) = none from rfl]
    rfl

/-- Claim C1 witness: a concrete displayable sequence on which the amended
round-trip law holds. -/
theorem c1_round_trip_witness :
    displayable
        [(⟨default, .Visible ['a', 'b']⟩ : Key), ⟨{ alt := true }, .Visible ['c', 'd']⟩] ∧
      seqParse (seqDisplay
          [(⟨default, .Visible ['a', 'b']⟩ : Key), ⟨{ alt := true }, .Visible ['c', 'd']⟩])
        = some (.ok
            ([(⟨default, .Visible ['a', 'b']⟩ : Key), ⟨{ alt := true }, .Visible ['c', 'd']⟩],
              [])) :=
  have hd : displayable
      [(⟨default, .Visible ['a', 'b']⟩ : Key), ⟨{ alt := true }, .Visible ['c', 'd']⟩] :=
    ⟨by decide, by decide, by decide, by
      simp only [List.chain'_cons, List.chain'_singleton, and_true]
      decide⟩
  ⟨hd, c1_round_trip_amended _ hd⟩

/-- Claim C3: when the per-keypress reply sender is dropped without sending, the
hook's wait resolves (to the `disconnected` error) and
`rx.recv().unwrap_or_default()` yields the default `KeyIntercept.Allow`, so
the hook does not swallow the keystroke. -/
theorem c3_reply_drop_allows :
    keyHookDecision (oneshotRecv none) = KeyIntercept.Allow ∧
      keyHookSwallows (oneshotRecv none) = false := by
  constructor <;> rfl

/-- Claim C4: backend construction is a check-and-set of the single global
event-sender slot — an occupied slot yields the `MultipleKeyboardHooks` error
and is left unchanged, an empty slot is filled with the new sender and
construction succeeds (when the hook installs) — and teardown clears the slot
back to empty. -/
theorem c4_single_backend_slot :
    (∀ (s tx : Nat) (install : Except Nat Nat),
        windowsBackendStateNew (some s) tx install
          = (.error .MultipleKeyboardHooks, some s)) ∧
      (∀ (tx hook : Nat),
        windowsBackendStateNew none tx (.ok hook) = (.ok hook, some tx)) ∧
      (∀ slot : Option Nat, windowsBackendStateDrop slot = none) :=
  ⟨fun s tx install => rfl, fun tx hook => rfl, fun slot => rfl⟩

/-- Claim C5: `contains(A, B)` holds exactly when `A` and `B` agree pairwise up
to the shorter of the two lengths; in particular it can hold when `A` is
shorter than `B`, and the specification's example holds. -/
theorem c5_contains_pairwise :
    (∀ a b : List Key,
        seqContains a b = true ↔ ∀ i, i < min a.length b.length → a[i]? = b[i]?) ∧
      seqContains
          [(⟨default, .Visible "foo".toList⟩ : Key), ⟨{ shift := true }, .Visible "bar".toList⟩]
          [(⟨default, .Visible "foo".toList⟩ : Key)] = true ∧
      seqContains [(⟨default, .Visible "foo".toList⟩ : Key)]
          [(⟨default, .Visible "foo".toList⟩ : Key), ⟨{ shift := true }, .Visible "x".toList⟩]
        = true := by
  refine ⟨?_, by decide, by decide⟩
  intro a b
  simp only [seqContains, Bool.not_eq_true', List.any_eq_false, decide_eq_true_eq, not_not]
  constructor
  · intro h i hi
    have hia : i < a.length := lt_of_lt_of_le hi (min_le_left _ _)
    have hib : i < b.length := lt_of_lt_of_le hi (min_le_right _ _)
    have hz : i < (a.zip b).length := by rw [List.length_zip]; exact hi
    have hmem : (a.zip b)[i] ∈ a.zip b := List.getElem_mem hz
    have hpq := h _ hmem
    rw [List.getElem_zip] at hpq
    rw [List.getElem?_eq_getElem hia, List.getElem?_eq_getElem hib]
    simpa using hpq
  · intro h p hp
    obtain ⟨i, hzi, hpi⟩ := List.mem_iff_getElem.mp hp
    rw [← hpi, List.getElem_zip]
    have hi : i < min a.length b.length := by rw [← List.length_zip]; exact hzi
    have hia : i < a.length := lt_of_lt_of_le hi (min_le_left _ _)
    have hib : i < b.length := lt_of_lt_of_le hi (min_le_right _ _)
    have hq := h i hi
    rw [List.getElem?_eq_getElem hia, List.getElem?_eq_getElem hib] at hq
    simpa using hq

/-- Claim C6: pushing two Visible keys with equal modifier sets onto an empty
sequence merges them into one element whose text is the concatenation;
pushing with different modifier sets yields two elements. -/
theorem c6_push_merge_law :
    (∀ (m : KeyModifiers) (t1 t2 : List Char),
        seqPush (seqPush [] ⟨m, .Visible t1⟩) ⟨m, .Visible t2⟩
          = [⟨m, .Visible (t1 ++ t2)⟩]) ∧
      (∀ (m1 m2 : KeyModifiers) (t1 t2 : List Char), m1 ≠ m2 →
        (seqPush (seqPush [] ⟨m1, .Visible t1⟩) ⟨m2, .Visible t2⟩).length = 2) := by
  constructor
  · intro m t1 t2
    rw [seqPush_nil]
    have := seqPush_merge ([] : List Key) m t1 t2
    simpa using this
  · intro m1 m2 t1 t2 hne
    rw [seqPush_nil]
    rw [seqPush_append [(⟨m1, .Visible t1⟩ : Key)] ⟨m2, .Visible t2⟩]
    · rfl
    · intro last hlast lt hlt kt hkt
      simp only [List.getLast?_singleton, Option.mem_def, Option.some.injEq] at hlast
      subst hlast
      simpa using hne.symm

/-- Claim C6 witness: the merge law at concrete keys. -/
theorem c6_push_merge_witness :
    seqPush (seqPush [] ⟨{ alt := true }, .Visible ['a']⟩) ⟨default, .Visible ['b']⟩
        = [⟨{ alt := true }, .Visible ['a']⟩, ⟨default, .Visible ['b']⟩] ∧
      (seqPush (seqPush [] ⟨{ alt := true }, .Visible ['a']⟩)
          ⟨default, .Visible ['b']⟩).length = 2 :=
  ⟨by decide, c6_push_merge_law.2 { alt := true } default ['a'] ['b'] (by decide)⟩

/-- Claim C5 witness: the pairwise characterization applied at `A = [key]`,
`B = []` (comparison up to the shorter length, which is 0). -/
theorem c5_contains_witness :
    seqContains [(⟨default, .Visible ['z']⟩ : Key)] [] = true :=
  (c5_contains_pairwise.1 _ _).mpr (by intro i hi; simp at hi)

theorem matcherScan_exact (buf : List Key) (table : List (KeyAction × List Key)) :
    (matcherScan buf table).1 = (table.find? (fun p => decide (buf = p.2))).map Prod.fst := by
  induction table with
  | nil => rfl
  | cons p rest ih =>
    obtain ⟨a, s⟩ := p
    by_cases he : buf = s
    · simp [matcherScan, List.find?, he]
    · simp only [matcherScan, if_neg he, List.find?]
      rw [show (decide (buf = s)) = false by simp [he]]
      exact ih

theorem matcherScan_flag (buf : List Key) (table : List (KeyAction × List Key))
    (h : ∀ p ∈ table, buf ≠ p.2) :
    (matcherScan buf table).2
      = table.any (fun p => seqContains p.2 buf && decide (buf.length < p.2.length)) := by
  induction table with
  | nil => rfl
  | cons p rest ih =>
    obtain ⟨a, s⟩ := p
    have hne : buf ≠ s := h (a, s) (by simp)
    simp only [matcherScan, if_neg hne, List.any_cons]
    rw [ih (fun q hq => h q (by simp [hq]))]
    rw [Bool.or_comm]

/-- Claim C2: the per-key matcher step behaves exactly as specified: overflow of
`max_binding_len` replies Allow and clears; an exact match (the first one in
scan order) replies Allow, clears, and executes the bound action, taking
precedence over any prefix candidate; otherwise a strict-prefix candidate
replies Block and keeps the appended buffer; otherwise Allow and clear. -/
theorem c2_matcher_step (table : List (KeyAction × List Key)) (maxLen : Nat)
    (buf : List Key) (k : Key) :
    (maxLen < (seqPush buf k).length →
        matcherStep table maxLen buf k = (.Allow, [], none)) ∧
      ((seqPush buf k).length ≤ maxLen →
        ∀ p, table.find? (fun q => decide (seqPush buf k = q.2)) = some p →
          matcherStep table maxLen buf k = (.Allow, [], some p.1)) ∧
      ((seqPush buf k).length ≤ maxLen →
        (∀ p ∈ table, seqPush buf k ≠ p.2) →
        (∃ p ∈ table, seqContains p.2 (seqPush buf k) = true ∧
            (seqPush buf k).length < p.2.length) →
          matcherStep table maxLen buf k = (.Block, seqPush buf k, none)) ∧
      ((seqPush buf k).length ≤ maxLen →
        (∀ p ∈ table, seqPush buf k ≠ p.2) →
        (¬∃ p ∈ table, seqContains p.2 (seqPush buf k) = true ∧
            (seqPush buf k).length < p.2.length) →
          matcherStep table maxLen buf k = (.Allow, [], none)) := by
  refine ⟨?_, ?_, ?_, ?_⟩
  · intro hover
    simp [matcherStep, hover]
  · intro hle p hfind
    have h1 : (matcherScan (seqPush buf k) table).1 = some p.1 := by
      rw [matcherScan_exact, hfind]
      rfl
    simp only [matcherStep, if_neg (not_lt.mpr hle)]
    match hs : matcherScan (seqPush buf k) table with
    | (some a, f) => simp_all
    | (none, f) => simp_all
  · intro hle hnoex hpre
    have h1 : (matcherScan (seqPush buf k) table).1 = none := by
      rw [matcherScan_exact]
      rw [List.find?_eq_none.mpr (by intro q hq; simpa using hnoex q hq)]
      rfl
    have h2 : (matcherScan (seqPush buf k) table).2 = true := by
      rw [matcherScan_flag _ _ hnoex]
      rw [List.any_eq_true]
      obtain ⟨p, hp, hc, hl⟩ := hpre
      exact ⟨p, hp, by simp [hc, hl]⟩
    simp only [matcherStep, if_neg (not_lt.mpr hle)]
    match hs : matcherScan (seqPush buf k) table with
    | (some a, f) => rw [hs] at h1; simp at h1
    | (none, true) => rfl
    | (none, false) => rw [hs] at h2; simp at h2
  · intro hle hnoex hnopre
    have h1 : (matcherScan (seqPush buf k) table).1 = none := by
      rw [matcherScan_exact]
      rw [List.find?_eq_none.mpr (by intro q hq; simpa using hnoex q hq)]
      rfl
    have h2 : (matcherScan (seqPush buf k) table).2 = false := by
      rw [matcherScan_flag _ _ hnoex]
      rw [← Bool.not_eq_true, List.any_eq_true]
      intro hex
      apply hnopre
      obtain ⟨p, hp, hb⟩ := hex
      simp only [Bool.and_eq_true, decide_eq_true_eq] at hb
      exact ⟨p, hp, hb.1, hb.2⟩
    simp only [matcherStep, if_neg (not_lt.mpr hle)]
    match hs : matcherScan (seqPush buf k) table with
    | (some a, f) => rw [hs] at h1; simp at h1
    | (none, true) => rw [hs] at h2; simp at h2
    | (none, false) => rfl

/-- Claim C2 witness: matcher scenario 2 of the specification, second key — the
binding table maps Quit to the sequence "xy"; with buffer ["x"], feeding 'y'
is an exact match: Allow, cleared buffer, Quit executed.  (Exact-match
conjunct applied at a concrete table.) -/
theorem c2_matcher_step_witness :
    matcherStep [(.Quit, [(⟨default, .Visible ['x', 'y']⟩ : Key)])] 1
        [(⟨default, .Visible ['x']⟩ : Key)] ⟨default, .Visible ['y']⟩
      = (.Allow, [], some .Quit) :=
  c2_matcher_step _ 1 _ _ |>.2.1 (by decide) (KeyAction.Quit, [(⟨default, .Visible ['x', 'y']⟩ : Key)]) (by decide)

theorem mergedInv_push (s : List Key) (k : Key) (h : mergedInv s) : mergedInv (seqPush s k) := by
  rcases List.eq_nil_or_concat s with rfl | ⟨s', a, rfl⟩
  · rw [seqPush_nil]
    exact List.chain'_singleton k
  · simp only [List.concat_eq_append] at h ⊢
    unfold seqPush
    rw [List.getLast?_concat]
    obtain ⟨am, akind⟩ := a
    obtain ⟨km, kkind⟩ := k
    unfold mergedInv at h ⊢
    cases akind with
    | Invisible ik =>
      simp only []
      rw [List.chain'_append]
      refine ⟨h, List.chain'_singleton _, ?_⟩
      intro x hx y hy
      simp only [List.head?_cons, Option.mem_def, Option.some.injEq] at hy
      subst hy
      intro hcon
      rw [List.getLast?_concat] at hx
      simp only [Option.mem_def, Option.some.injEq] at hx
      subst hx
      exact absurd hcon.1 (by simp [KeyKind.isVis])
    | Visible lt =>
      cases kkind with
      | Invisible ik =>
        simp only []
        rw [List.chain'_append]
        refine ⟨h, List.chain'_singleton _, ?_⟩
        intro x hx y hy
        simp only [List.head?_cons, Option.mem_def, Option.some.injEq] at hy
        subst hy
        intro hcon
        exact absurd hcon.2.1 (by simp [KeyKind.isVis])
      | Visible kt =>
        by_cases he : km = am
        · simp only []
          rw [if_pos (by simpa using he)]
          rw [List.dropLast_concat]
          rw [List.chain'_append] at h ⊢
          obtain ⟨h1, h2, h3⟩ := h
          refine ⟨h1, List.chain'_singleton _, ?_⟩
          intro x hx y hy
          simp only [List.head?_cons, Option.mem_def, Option.some.injEq] at hy
          subst hy
          have hr := h3 x hx (⟨am, .Visible lt⟩ : Key) (by simp)
          intro hcon
          exact hr ⟨hcon.1, by simp [KeyKind.isVis], hcon.2.2⟩
        · simp only []
          rw [if_neg (by simpa using he)]
          rw [List.chain'_append]
          refine ⟨h, List.chain'_singleton _, ?_⟩
          intro x hx y hy
          rw [List.getLast?_concat] at hx
          simp only [List.head?_cons, Option.mem_def, Option.some.injEq] at hx hy
          subst hx
          subst hy
          intro hcon
          exact he hcon.2.2.symm

/-- Structural invariant carried through the `KeySequence::parse` loop: the
result is built by pushes from the accumulator, so the merge invariant is
preserved, the remainder is unparsable, and at least one key was parsed. -/
theorem seqParseAux_inv (flag : Bool) (acc : List Key) (input : List Char) :
    ∀ ks rest, seqParseAux flag acc input = some (.ok (ks, rest)) →
      keyParse rest = none ∧ (mergedInv acc → mergedInv ks) ∧
        ((flag = true → acc ≠ []) → ks ≠ []) := by
  intro ks rest h
  rw [seqParseAux_eq] at h
  match hk : keyParse input with
  | some (.error e) => rw [hk] at h; simp at h
  | some (.ok (k, r)) =>
    rw [hk] at h
    simp only at h
    have ih := seqParseAux_inv true (seqPush acc k) r ks rest h
    exact ⟨ih.1, fun hm => ih.2.1 (mergedInv_push acc k hm),
      fun _ => ih.2.2 (fun _ => seqPush_ne_nil acc k)⟩
  | none =>
    rw [hk] at h
    split_ifs at h with hf
    simp only [Option.some.injEq, Except.ok.injEq, Prod.mk.injEq] at h
    obtain ⟨h1, h2⟩ := h
    subst h1; subst h2
    exact ⟨hk, fun hm => hm, fun hi => hi hf⟩
termination_by input.length
decreasing_by exact keyParse_length input k r hk

/-- Claim C7: the adjacent-merge invariant — no two adjacent elements both
Visible with equal modifier sets — holds for the empty sequence (`new` and
`with_capacity`) and is preserved by `push`, `extend`, `from_iter`, and
established by `parse`. -/
theorem c7_sequence_invariant :
    mergedInv ([] : List Key) ∧
      (∀ (s : List Key) (k : Key), mergedInv s → mergedInv (seqPush s k)) ∧
      (∀ (s l : List Key), mergedInv s → mergedInv (seqExtend s l)) ∧
      (∀ l : List Key, mergedInv (seqFromIter l)) ∧
      (∀ (input : List Char) (ks : List Key) (rest : List Char),
        seqParse input = some (.ok (ks, rest)) → mergedInv ks) := by
  have hext : ∀ (l s : List Key), mergedInv s → mergedInv (seqExtend s l) := by
    intro l
    induction l with
    | nil => intro s hs; exact hs
    | cons k l ih =>
      intro s hs
      rw [show seqExtend s (k :: l) = seqExtend (seqPush s k) l from rfl]
      exact ih _ (mergedInv_push s k hs)
  refine ⟨List.chain'_nil, mergedInv_push, fun s l => hext l s, ?_, ?_⟩
  · intro l
    exact hext l [] List.chain'_nil
  · intro input ks rest h
    exact (seqParseAux_inv false [] input ks rest h).2.1 List.chain'_nil

/-- Claim C7 witness: pushing onto a singleton sequence preserves the
invariant. -/
theorem c7_sequence_invariant_witness :
    mergedInv (seqPush [(⟨default, .Visible ['a']⟩ : Key)] ⟨default, .Visible ['b']⟩) :=
  c7_sequence_invariant.2.1 _ _ (List.chain'_singleton _)

/-- Claim C9: sequence parsing loops "one key at a time" until the rest of the
input is unparsable: empty input yields `none` rather than an empty success;
the specification's example `"foo bar<F-10>"` key-kind-parses to
`Visible "foo bar"` with remainder `"<F-10>"`; every successful sequence
parse ends at an unparsable remainder with at least one key; and a non-empty
unparsable remainder (`"Mx"` after `"a"`) ends the parse successfully. -/
theorem c9_sequence_parse_loop :
    seqParse [] = none ∧
      kindParse "foo bar<F-10>".toList
        = some (.ok (.Visible "foo bar".toList, "<F-10>".toList)) ∧
      (∀ (input : List Char) (ks : List Key) (rest : List Char),
        seqParse input = some (.ok (ks, rest)) → keyParse rest = none ∧ ks ≠ []) ∧
      seqParse "aMx".toList
        = some (.ok ([(⟨default, .Visible ['a']⟩ : Key)], ['M', 'x'])) := by
  refine ⟨?_, by rfl, ?_, ?_⟩
  · show seqParseAux false [] [] = none
    rw [seqParseAux_eq, keyParse_nil]
    rfl
  · intro input ks rest h
    have hi := seqParseAux_inv false [] input ks rest h
    exact ⟨hi.1, hi.2.2 (fun hf => absurd hf (by simp))⟩
  · show seqParseAux false [] _ = _
    rw [seqParseAux_eq]
    rw [show keyParse "aMx".toList
        = some (.ok ((⟨default, .Visible ['a']⟩ : Key), ['M', 'x'])) from rfl]
    simp only
    rw [seqParseAux_eq]
    rw [show keyParse ['M', 'x'] = none from rfl]
    rfl

/-- Claim C9 witness: the loop-termination conjunct applied at the concrete
input `"aMx"`, whose parse succeeds with remainder `"Mx"`. -/
theorem c9_sequence_parse_witness :
    keyParse ['M', 'x'] = none ∧ [(⟨default, .Visible ['a']⟩ : Key)] ≠ [] :=
  c9_sequence_parse_loop.2.2.1 "aMx".toList _ _ c9_sequence_parse_loop.2.2.2

/-- Claim C8 counterexample: a backslash followed by `'a'` — not one of the
escapable special characters — parses successfully to `Visible "a"` instead
of returning an error as the claim requires. -/
theorem c8_escape_counterexample :
    kindParse ['\\', 'a'] = some (.ok (.Visible ['a'], [])) := rfl

/-- Claim C8 (corrected): a backslash escapes ANY following character — the
special characters `M`, `C`, `S`, `L`, `<` become literal, `n`/`r`/`t` map to
control characters, and every other character maps to itself (`escMap`); the
only escape error is a trailing backslash with no character after it
(`UnusedEscape`, reported at the backslash's position). -/
theorem c8_escape_amended :
    (∀ c : Char, kindParse ['\\', c] = some (.ok (.Visible [escMap c], []))) ∧
      kindParse ['\\'] = some (.error (.UnusedEscape ['\\'] 0)) ∧
      (∀ t : List Char, (∀ c ∈ t, goodChar c) →
        kindParse (t ++ ['\\']) = some (.error (.UnusedEscape (t ++ ['\\']) t.length))) := by
  refine ⟨?_, by rfl, ?_⟩
  · intro c
    simp [kindParse, visScan, stopChar]
  · intro t hall
    match t with
    | [] => rfl
    | c :: t' =>
      have hc := hall c (by simp)
      simp only [List.cons_append, kindParse]
      rw [if_neg hc.2.2.2.2.1]
      rw [show c :: (t' ++ ['\\']) = (c :: t') ++ ['\\'] from rfl]
      rw [visScan_walk _ (c :: t') hall 0 [] ['\\']]
      simp [visScan, stopChar]

/-- Claim C8 witness: the trailing-backslash conjunct applied at `"a\"`. -/
theorem c8_escape_witness :
    kindParse ['a', '\\'] = some (.error (.UnusedEscape ['a', '\\'] 1)) :=
  c8_escape_amended.2.2 ['a'] (by decide)

theorem fkeyFold_le (ds : List Char) :
    ∀ acc v : Nat, fkeyFold acc ds = some v → acc ≤ 255 → v ≤ 255 := by
  induction ds with
  | nil =>
    intro acc v h hacc
    simp only [fkeyFold, Option.some.injEq] at h
    omega
  | cons c ds ih =>
    intro acc v h hacc
    simp only [fkeyFold] at h
    split_ifs at h with h1
    match hd : charDigit c with
    | none => rw [hd] at h; simp at h
    | some d =>
      rw [hd] at h
      simp only at h
      split_ifs at h with h2
      exact ih _ _ h h2

theorem fkeyFold_bad (ds : List Char) :
    ∀ acc : Nat, (∃ c ∈ ds, charDigit c = none) → fkeyFold acc ds = none := by
  induction ds with
  | nil => intro acc h; simp at h
  | cons c ds ih =>
    intro acc h
    simp only [fkeyFold]
    split_ifs with h1
    · match hd : charDigit c with
      | none => rfl
      | some d =>
        simp only
        split_ifs with h2
        · apply ih
          obtain ⟨x, hx, hxd⟩ := h
          simp only [List.mem_cons] at hx
          rcases hx with rfl | hx
          · rw [hd] at hxd; simp at hxd
          · exact ⟨x, hx, hxd⟩
        · rfl
    · rfl

theorem fkeyFold_val (ds : List Char) :
    ∀ acc v : Nat, fkeyFold acc ds = some v →
      v = ds.foldl (fun a c => a * 10 + (charDigit c).getD 0) acc := by
  induction ds with
  | nil =>
    intro acc v h
    simp only [fkeyFold, Option.some.injEq] at h
    simp [← h]
  | cons c ds ih =>
    intro acc v h
    simp only [fkeyFold] at h
    split_ifs at h with h1
    match hd : charDigit c with
    | none => rw [hd] at h; simp at h
    | some d =>
      rw [hd] at h
      simp only at h
      split_ifs at h with h2
      rw [List.foldl_cons, hd]
      simpa using ih _ _ h

theorem fkeyFold_overflow (ds : List Char)
    (hbig : 255 < ds.foldl (fun a c => a * 10 + (charDigit c).getD 0) 0) :
    fkeyFold 0 ds = none := by
  match hf : fkeyFold 0 ds with
  | none => rfl
  | some v =>
    have hval := fkeyFold_val ds 0 v hf
    have hle := fkeyFold_le ds 0 v hf (by omega)
    omega

theorem takeWhile_append_all {p : Char → Bool} (l r : List Char)
    (h : ∀ c ∈ l, p c = true) : (l ++ r).takeWhile p = l ++ r.takeWhile p := by
  induction l with
  | nil => simp
  | cons c l ih =>
    simp only [List.cons_append, List.takeWhile_cons]
    rw [h c (by simp)]
    simp only [if_true, List.cons.injEq, true_and]
    exact ih (fun x hx => h x (by simp [hx]))

theorem dropWhile_append_all {p : Char → Bool} (l r : List Char)
    (h : ∀ c ∈ l, p c = true) : (l ++ r).dropWhile p = r.dropWhile p := by
  induction l with
  | nil => simp
  | cons c l ih =>
    simp only [List.cons_append, List.dropWhile_cons]
    rw [h c (by simp)]
    simp only [if_pos rfl]
    exact ih (fun x hx => h x (by simp [hx]))

/-- Claim C10: named-key parsing never produces a function-key number outside
the `u8` range (the accumulation is checked), and both an overflowing digit
run and a non-digit after `"F-"` yield the `UnknownSpecialKey` error — shown
in general and at the concrete inputs `"<F-256>"` and `"<F-x>"`. -/
theorem c10_named_key_checked :
    (∀ (input : List Char) (k : InvisibleKey) (rest : List Char),
        invisibleKeyParse input = some (.ok (k, rest)) → ∀ n, k = .F n → n ≤ 255) ∧
      (∀ ds rest : List Char, (∀ c ∈ ds, c ≠ '>') →
        ((∃ c ∈ ds, charDigit c = none) ∨
          255 < ds.foldl (fun a c => a * 10 + (charDigit c).getD 0) 0) →
        invisibleKeyParse ('<' :: 'F' :: '-' :: (ds ++ '>' :: rest))
          = some (.error (.UnknownSpecialKey ('F' :: '-' :: ds)))) ∧
      invisibleKeyParse "<F-256>".toList
        = some (.error (.UnknownSpecialKey "F-256".toList)) ∧
      invisibleKeyParse "<F-x>".toList
        = some (.error (.UnknownSpecialKey "F-x".toList)) := by
  refine ⟨?_, ?_, by rfl, by rfl⟩
  · intro input k rest h n hk
    subst hk
    match input with
    | [] => simp [invisibleKeyParse] at h
    | c :: t =>
      by_cases hc : c = '<'
      · subst hc
        simp only [invisibleKeyParse] at h
        rw [if_neg (by simp)] at h
        split at h
        · simp at h
        · split_ifs at h with h1 h2 h3
          · simp at h
          · simp at h
          · split at h
            · rename_i m hm
              simp only [Option.some.injEq, Except.ok.injEq, Prod.mk.injEq,
                InvisibleKey.F.injEq] at h
              obtain ⟨hmn, -⟩ := h
              subst hmn
              exact fkeyFold_le _ 0 m hm (by omega)
            · simp at h
          · simp at h
      · simp only [invisibleKeyParse] at h
        rw [if_pos hc] at h
        simp at h
  · intro ds rest hgt hbad
    have hpred : ∀ c ∈ ('<' :: 'F' :: '-' :: ds), notGtChar c = true := by
      intro c hcmem
      simp only [List.mem_cons] at hcmem
      rcases hcmem with rfl | rfl | rfl | hmem
      · rfl
      · rfl
      · rfl
      · simp [notGtChar, hgt c hmem]
    have hfold : fkeyFold 0 ds = none := by
      rcases hbad with hone | hbig
      · exact fkeyFold_bad ds 0 hone
      · exact fkeyFold_overflow ds hbig
    simp only [invisibleKeyParse]
    rw [if_neg (by simp)]
    rw [show ('<' :: 'F' :: '-' :: (ds ++ '>' :: rest))
        = ('<' :: 'F' :: '-' :: ds) ++ '>' :: rest from by simp]
    rw [dropWhile_append_all _ _ hpred, takeWhile_append_all _ _ hpred]
    rw [show List.dropWhile notGtChar ('>' :: rest) = '>' :: rest from by
      rw [List.dropWhile_cons]; simp [notGtChar]]
    rw [show List.takeWhile notGtChar ('>' :: rest) = [] from by
      rw [List.takeWhile_cons]; simp [notGtChar]]
    simp only [List.append_nil, List.drop_succ_cons, List.drop_zero]
    rw [show "PG-UP".toList = ['P', 'G', '-', 'U', 'P'] from rfl,
      show "PG-DN".toList = ['P', 'G', '-', 'D', 'N'] from rfl]
    rw [if_neg (by intro hcon; injection hcon with h1 h2; exact absurd h1 (by decide))]
    rw [if_neg (by intro hcon; injection hcon with h1 h2; exact absurd h1 (by decide))]
    rw [if_pos (by rfl)]
    rw [hfold]

/-- Claim C10 witness: the range conjunct applied at `"<F-9>"`, and the
error conjunct applied at digits `"x"` (non-digit). -/
theorem c10_named_key_witness :
    ((9 : Nat) ≤ 255) ∧
      invisibleKeyParse ('<' :: 'F' :: '-' :: (['x'] ++ '>' :: []))
        = some (.error (.UnknownSpecialKey ('F' :: '-' :: ['x']))) :=
  ⟨c10_named_key_checked.1 "<F-9>".toList (.F 9) ['>'] (by rfl) 9 rfl,
    c10_named_key_checked.2.1 ['x'] [] (by decide)
      (Or.inl ⟨'x', by decide, by decide⟩)⟩

end Storm
